import Mathlib

/-!
Shallow embedding of the `mutative-yjs` bidirectional synchronization
engine (src/bind.ts, src/util.ts, src/helpers.ts) and proofs about it.

JavaScript values are modelled in two ways:
* tree-shaped plain JSON values (`JSONValue`), for values in which every
  mapping/sequence is a distinct object identity; and
* heap-represented plain values (`Heap`, `PlainRef`), in which object
  identity is explicit, so shared references and reference cycles can be
  expressed. The converter `toYDataType` tracks visited identities in a
  `seen` set exactly as the source does with its `WeakSet`.

Yjs containers are modelled by the tree type `YValue`; in-place mutation
of a container is modelled by functional update of the tree, and a thrown
JavaScript exception is modelled by returning the error alongside the
tree state at the moment the exception escapes (so mutations performed
before the throw persist, as they do in JavaScript).
-/

namespace MutativeYjs

/-- JavaScript primitives that are valid JSON leaves
(util.ts `isJSONPrimitive`: string, number, boolean, null). -/
inductive JPrim where
  | str (s : String)
  | num (n : Int)
  | bool (b : Bool)
  | null
deriving DecidableEq, Repr

/-- Tree-shaped plain JSON values (src/types.ts `JSONValue`): the shape of
snapshots, where every mapping / sequence is a distinct fresh identity. -/
inductive JSONValue where
  | prim (p : JPrim)
  | obj (entries : List (String × JSONValue))
  | arr (elems : List JSONValue)
deriving Repr

/-- A Yjs container tree: `Y.Map` / `Y.Array` nodes and primitive leaves. -/
inductive YValue where
  | prim (p : JPrim)
  | ymap (entries : List (String × YValue))
  | yarr (elems : List YValue)
deriving Repr

/-- `Y.Map.get k` on the entry list of a map. -/
def ymapLookup (es : List (String × YValue)) (k : String) : Option YValue :=
  match es with
  | [] => none
  | (k', y) :: rest => if k' = k then some y else ymapLookup rest k

/-- Whether the map has the key (`Y.Map.has`). -/
def ymapHasKey (es : List (String × YValue)) (k : String) : Bool :=
  match es with
  | [] => false
  | (k', _) :: rest => if k' = k then true else ymapHasKey rest k

/-- `Y.Map.set k y`: replace the value of an existing key in place
(keeping its position, as a JavaScript `Map` does), else append. -/
def ymapSet (es : List (String × YValue)) (k : String) (y : YValue) :
    List (String × YValue) :=
  match es with
  | [] => [(k, y)]
  | (k', y') :: rest =>
      if k' = k then (k', y) :: rest else (k', y') :: ymapSet rest k y

/-- `Y.Map.delete k`. -/
def ymapDelete (es : List (String × YValue)) (k : String) :
    List (String × YValue) :=
  es.filter (fun p => p.1 ≠ k)

/-- Set a whole batch of entries in order (`dest.set(k, …)` per entry,
as `applyJsonObject` in util.ts does). -/
def ymapSetAll (acc : List (String × YValue)) :
    List (String × YValue) → List (String × YValue)
  | [] => acc
  | (k, y) :: rest => ymapSetAll (ymapSet acc k y) rest

mutual

/-- util.ts `toYDataType` restricted to tree-shaped plain values: every
mapping / sequence constructor is a fresh identity, so the `seen` set of
the source can never contain the value under conversion and is dropped.
(The general, identity-tracking form is `toYDataTypeH` below.) -/
def toYDataTypeT : JSONValue → YValue
  | .prim p => .prim p
  | .arr xs => .yarr (toYListT xs)
  | .obj es => .ymap (ymapSetAll [] (toYEntriesT es))

/-- util.ts `applyJsonArray`: convert each element in order. -/
def toYListT : List JSONValue → List YValue
  | [] => []
  | x :: xs => toYDataTypeT x :: toYListT xs

/-- util.ts `applyJsonObject`: convert each entry value in order. -/
def toYEntriesT : List (String × JSONValue) → List (String × YValue)
  | [] => []
  | (k, v) :: es => (k, toYDataTypeT v) :: toYEntriesT es

end

mutual

/-- util.ts `toPlainValue`: a container converts to its deep plain-value
projection (`v.toJSON()`), a primitive passes through unchanged. -/
def toPlainValueY : YValue → JSONValue
  | .prim p => .prim p
  | .ymap es => .obj (plainEntries es)
  | .yarr xs => .arr (plainList xs)

/-- `toJSON` of every element of a `Y.Array`. -/
def plainList : List YValue → List JSONValue
  | [] => []
  | y :: ys => toPlainValueY y :: plainList ys

/-- `toJSON` of every entry of a `Y.Map`. -/
def plainEntries : List (String × YValue) → List (String × JSONValue)
  | [] => []
  | (k, y) :: es => (k, toPlainValueY y) :: plainEntries es

end

/-- Whether a key occurs in a plain-object entry list. -/
def hasKeyJ (es : List (String × JSONValue)) (k : String) : Bool :=
  match es with
  | [] => false
  | (k', _) :: rest => if k' = k then true else hasKeyJ rest k

mutual

/-- Well-formedness of a tree value as the image of a JavaScript value:
object entry lists carry no duplicate keys (a JavaScript object cannot). -/
def jwf : JSONValue → Bool
  | .prim _ => true
  | .arr xs => jwfList xs
  | .obj es => jwfEntries es

def jwfList : List JSONValue → Bool
  | [] => true
  | x :: xs => jwf x && jwfList xs

def jwfEntries : List (String × JSONValue) → Bool
  | [] => true
  | (k, v) :: es => !hasKeyJ es k && jwf v && jwfEntries es

end

/-! ### Heap-represented plain values (object identity made explicit) -/

/-- A reference to a plain JavaScript value: either a primitive, or the
identity (heap index) of a mapping / sequence object. -/
inductive PlainRef where
  | prim (p : JPrim)
  | ref (i : Nat)
deriving DecidableEq, Repr

/-- A plain mapping or sequence object. Its fields hold references, so
shared references and reference cycles are representable. -/
inductive PlainNode where
  | obj (entries : List (String × PlainRef))
  | arr (elems : List PlainRef)
deriving DecidableEq, Repr

/-- The store of plain objects; a `PlainRef.ref i` denotes `heap[i]`. -/
abbrev Heap := List PlainNode

/-- JavaScript `typeof` of a plain value (`typeof null` is `"object"`,
and every mapping / sequence is `"object"`). -/
def typeofStr : PlainRef → String
  | .prim (.str _) => "string"
  | .prim (.num _) => "number"
  | .prim (.bool _) => "boolean"
  | .prim .null => "object"
  | .ref _ => "object"

/-- util.ts `isJSONPrimitive`: strings, numbers, booleans and `null`. -/
def isJSONPrimitiveH : PlainRef → Bool
  | .prim _ => true
  | .ref _ => false

/-- util.ts `isJSONArray` (`Array.isArray`). -/
def isJSONArrayH (heap : Heap) : PlainRef → Bool
  | .prim _ => false
  | .ref i =>
      match heap.get? i with
      | some (.arr _) => true
      | _ => false

/-- util.ts `isJSONObject`: not an array and of `typeof` `"object"`.
Note that `null` satisfies this predicate, exactly as in the source. -/
def isJSONObjectH (heap : Heap) (v : PlainRef) : Bool :=
  !isJSONArrayH heap v && typeofStr v == "object"

/-- Errors thrown by the conversion / patch-application layer. `fuelOut`
is a modelling artifact: JavaScript recursion is unbounded, so theorems
either supply enough fuel or take successful conversion as hypothesis. -/
inductive ConvErr where
  | circular
  | typeError
  | notImplemented (reason : String)
  | fuelOut
deriving DecidableEq, Repr

/-- util.ts `applyJsonArray` body: convert the elements left to right
with the conversion function `f`, threading the `seen` set; the first
thrown error escapes. -/
def convElems (f : List Nat → PlainRef → Except ConvErr (YValue × List Nat)) :
    List Nat → List PlainRef → Except ConvErr (List YValue × List Nat)
  | seen, [] => .ok ([], seen)
  | seen, x :: xs =>
      match f seen x with
      | .error e => .error e
      | .ok (y, seen') =>
          match convElems f seen' xs with
          | .error e => .error e
          | .ok (ys, seen'') => .ok (y :: ys, seen'')

/-- util.ts `applyJsonObject` body: convert the entry values left to
right with the conversion function `f`, threading the `seen` set; the
first thrown error escapes. -/
def convEntries (f : List Nat → PlainRef → Except ConvErr (YValue × List Nat)) :
    List Nat → List (String × PlainRef) →
      Except ConvErr (List (String × YValue) × List Nat)
  | seen, [] => .ok ([], seen)
  | seen, (k, x) :: xs =>
      match f seen x with
      | .error e => .error e
      | .ok (y, seen') =>
          match convEntries f seen' xs with
          | .error e => .error e
          | .ok (fs, seen'') => .ok ((k, y) :: fs, seen'')

/-- util.ts `toYDataType` over heap-represented plain values. `seen` is
the `WeakSet` of already-visited identities; the source mutates the one
set across the whole conversion call, so it is threaded through and
returned. An identity met twice raises the circular-reference error.
The recursion is fuelled by nesting depth (children are converted at one
fuel less); JavaScript recursion is unbounded, so theorems supply enough
fuel or take successful conversion as hypothesis. -/
def toYDataTypeH (heap : Heap) : Nat → List Nat → PlainRef →
    Except ConvErr (YValue × List Nat)
  | 0, _, _ => .error .fuelOut
  | _ + 1, seen, .prim p => .ok (.prim p, seen)
  | fuel + 1, seen, .ref i =>
      match heap.get? i with
      | none => .ok (.prim .null, seen)
      | some (.arr elems) =>
          if i ∈ seen then .error .circular
          else
            match convElems (toYDataTypeH heap fuel) (i :: seen) elems with
            | .error e => .error e
            | .ok (ys, seen') => .ok (.yarr ys, seen')
      | some (.obj entries) =>
          if i ∈ seen then .error .circular
          else
            match convEntries (toYDataTypeH heap fuel) (i :: seen) entries with
            | .error e => .error e
            | .ok (fs, seen') => .ok (.ymap (ymapSetAll [] fs), seen')

/-- A call of `toYDataType(v)` with the default, fresh `WeakSet`. -/
def toYConv (heap : Heap) (fuel : Nat) (v : PlainRef) :
    Except ConvErr YValue :=
  match toYDataTypeH heap fuel [] v with
  | .ok (y, _) => .ok y
  | .error e => .error e

/-- The value reachable from `v` unfolds completely within depth `fuel`
(ignoring identities): this is exactly "free of reference cycles". -/
def boundedTree (heap : Heap) : Nat → PlainRef → Bool
  | _, .prim _ => true
  | 0, .ref _ => false
  | fuel + 1, .ref i =>
      match heap.get? i with
      | none => true
      | some (.arr elems) => elems.all (fun x => boundedTree heap fuel x)
      | some (.obj entries) => entries.all (fun p => boundedTree heap fuel p.2)

/-! ### The patch applier (bind.ts `defaultApplyPatch`) -/

/-- Mutative patch operations (bind.ts `PATCH_ADD` / `PATCH_REPLACE` /
`PATCH_REMOVE`). -/
inductive POp where
  | add
  | replace
  | remove
deriving DecidableEq, Repr

/-- One path segment of a Mutative patch: a string key or a numeric
index. The array-resize pseudo-property is the string key `"length"`. -/
inductive PKey where
  | s (k : String)
  | n (i : Nat)
deriving DecidableEq, Repr

/-- A Mutative patch (`{ op, path, value }`). `remove` patches carry no
value in JavaScript; callers pass `.prim .null` there, and no `remove`
branch of the applier reads the value. -/
structure PatchM where
  op : POp
  path : List PKey
  value : PlainRef
deriving DecidableEq, Repr

def opStr : POp → String
  | .add => "add"
  | .replace => "replace"
  | .remove => "remove"

def keyStr : PKey → String
  | .s k => k
  | .n i => toString i

/-- `constructor.name` of a Yjs node. -/
def ctorName : YValue → String
  | .ymap _ => "YMap"
  | .yarr _ => "YArray"
  | .prim _ => "Primitive"

/-- Navigation step `base.get(step)` of the path walk in
`defaultApplyPatch`: a key on a map, an index on an array; any other
combination yields JavaScript `undefined` (modelled as `none`). -/
def getChild (node : YValue) (step : PKey) : Option YValue :=
  match node, step with
  | .ymap es, .s k => ymapLookup es k
  | .ymap _, .n _ => none
  | .yarr xs, .n i => xs.get? i
  | .yarr _, .s _ => none
  | .prim _, _ => none

/-- Write an updated child back at a navigation step; models the fact
that the JavaScript mutation happens in place on the shared child. -/
def setChild (node : YValue) (step : PKey) (child : YValue) : YValue :=
  match node, step with
  | .ymap es, .s k => .ymap (ymapSet es k child)
  | .yarr xs, .n i => .yarr (xs.set i child)
  | n, _ => n

/-- JavaScript `Object.entries(value)`: entries of a mapping, a thrown
`TypeError` on `null`, and an empty list on the remaining primitives
(boxing a number or boolean yields no own enumerable properties; the
applier only reaches this function when `isJSONObject value` holds, so
strings and arrays cannot arrive here). -/
def entriesOfObject (heap : Heap) : PlainRef → Except ConvErr (List (String × PlainRef))
  | .prim .null => .error .typeError
  | .prim _ => .ok []
  | .ref i =>
      match heap.get? i with
      | some (.obj es) => .ok es
      | _ => .ok []

/-- JavaScript `for (const k in value)`: iterates the own enumerable
keys of a mapping and performs zero iterations on `null` and the other
primitives (guarded by `isJSONObject value` at the call site). -/
def entriesForIn (heap : Heap) : PlainRef → List (String × PlainRef)
  | .prim _ => []
  | .ref i =>
      match heap.get? i with
      | some (.obj es) => es
      | _ => []

/-- The elements of a plain sequence value (guarded by `isJSONArray` at
the call site). -/
def elemsOfArr (heap : Heap) : PlainRef → List PlainRef
  | .prim _ => []
  | .ref i =>
      match heap.get? i with
      | some (.arr xs) => xs
      | _ => []

/-- The repopulation loop shared by the root-`replace` map branch and
the incremental array-element update: for each plain entry, convert the
value with a fresh `seen` set and `set` it on the target map. A thrown
conversion error escapes, leaving the keys already set in place. -/
def repopulate (heap : Heap) (fuel : Nat) (acc : List (String × YValue)) :
    List (String × PlainRef) → Option ConvErr × List (String × YValue)
  | [] => (none, acc)
  | (k, w) :: rest =>
      match toYConv heap fuel w with
      | .error e => (some e, acc)
      | .ok y => repopulate heap fuel (ymapSet acc k y) rest

/-- `value.map((v) => toYDataType(v))` of the root-`replace` array
branch: all elements are converted (each with a fresh `seen` set) before
anything is pushed; the first thrown error escapes. -/
def convertAllFresh (heap : Heap) (fuel : Nat) :
    List PlainRef → Except ConvErr (List YValue)
  | [] => .ok []
  | x :: xs =>
      match toYConv heap fuel x with
      | .error e => .error e
      | .ok y =>
          match convertAllFresh heap fuel xs with
          | .error e => .error e
          | .ok ys => .ok (y :: ys)

/-- The terminal mutation of `defaultApplyPatch` (bind.ts 112-161); the
first component is the error escaping the call, if any, and the second
is the state of the target node when the call returns or the error
escapes. The branch order mirrors the source: keyed container with a
string key, sequence container with a numeric index, sequence container
with the `"length"` pseudo-key, otherwise `notImplemented`. -/
def mutateTerminal (heap : Heap) (fuel : Nat) (node : YValue) (last : PKey)
    (op : POp) (v : PlainRef) : Option ConvErr × YValue :=
  match node, last with
  | .ymap es, .s k =>
      match op with
      | .add | .replace =>
          match toYConv heap fuel v with
          | .error e => (some e, .ymap es)
          | .ok y => (none, .ymap (ymapSet es k y))
      | .remove => (none, .ymap (ymapDelete es k))
  | .yarr xs, .n i =>
      match op with
      | .add =>
          match toYConv heap fuel v with
          | .error e => (some e, .yarr xs)
          | .ok y => (none, .yarr (xs.insertIdx i y))
      | .replace =>
          match xs.get? i with
          | some (.ymap _) =>
              if isJSONObjectH heap v then
                -- incremental update: oldValue.clear(), then set key by key
                match entriesOfObject heap v with
                | .error e => (some e, .yarr (xs.set i (.ymap [])))
                | .ok plainEs =>
                    match repopulate heap fuel [] plainEs with
                    | (err, es') => (err, .yarr (xs.set i (.ymap es')))
              else
                -- full replacement: delete one element, then insert
                match toYConv heap fuel v with
                | .error e => (some e, .yarr (xs.eraseIdx i))
                | .ok y => (none, .yarr ((xs.eraseIdx i).insertIdx i y))
          | _ =>
              match toYConv heap fuel v with
              | .error e => (some e, .yarr (xs.eraseIdx i))
              | .ok y => (none, .yarr ((xs.eraseIdx i).insertIdx i y))
      | .remove => (none, .yarr (xs.eraseIdx i))
  | .yarr xs, .s k =>
      if k = "length" then
        match v with
        | .prim (.num t) =>
            if t < (xs.length : Int) then
              -- shrink: delete the trailing elements down to the target
              (none, .yarr (xs.take t.toNat))
            else if (xs.length : Int) < t then
              -- expand: push null placeholders up to the target
              (none, .yarr (xs ++ List.replicate (t - xs.length).toNat (.prim .null)))
            else (none, .yarr xs)
        | _ => (none, .yarr xs)  -- NaN comparisons are both false
      else
        (some (.notImplemented ("Unsupported patch operation: " ++ opStr op ++
          " on " ++ ctorName node ++ "." ++ k)), node)
  | _, _ =>
      (some (.notImplemented ("Unsupported patch operation: " ++ opStr op ++
        " on " ++ ctorName node ++ "." ++ keyStr last)), node)

/-- The navigation loop of `defaultApplyPatch` (bind.ts 104-110) fused
with the terminal mutation: walk all path segments but the last through
child lookups, then mutate the parent. A missing child makes the next
`get` call throw a `TypeError`, unless the walk is already at the last
segment, in which case the terminal dispatch falls through to the
`notImplemented` branch (the navigated base is `undefined`). -/
def applyPatchRec (heap : Heap) (fuel : Nat) :
    YValue → List PKey → POp → PlainRef → Option ConvErr × YValue
  | node, [], _, _ => (none, node)
  | node, [last], op, v => mutateTerminal heap fuel node last op v
  | node, step :: rest :: more, op, v =>
      match getChild node step with
      | some child =>
          match applyPatchRec heap fuel child (rest :: more) op v with
          | (err, child') => (err, setChild node step child')
      | none =>
          match more with
          | [] =>
              (some (.notImplemented ("Unsupported patch operation: " ++
                opStr op ++ " on unknown." ++ keyStr rest)), node)
          | _ => (some .typeError, node)

/-- bind.ts `defaultApplyPatch`: the root branch for an empty path,
otherwise navigation plus terminal mutation. -/
def applyPatchH (heap : Heap) (fuel : Nat) (target : YValue) (p : PatchM) :
    Option ConvErr × YValue :=
  match p.path with
  | [] =>
      if p.op = POp.replace then
        match target with
        | .ymap _ =>
            if isJSONObjectH heap p.value then
              -- target.clear(), then set each key of the value
              match repopulate heap fuel [] (entriesForIn heap p.value) with
              | (err, es') => (err, .ymap es')
            else
              (some (.notImplemented ("Cannot replace root of type " ++
                ctorName target ++ " with value type " ++ typeofStr p.value)),
               target)
        | .yarr _ =>
            if isJSONArrayH heap p.value then
              -- target.delete(0, target.length), then push the conversions
              match convertAllFresh heap fuel (elemsOfArr heap p.value) with
              | .error e => (some e, .yarr [])
              | .ok ys => (none, .yarr ys)
            else
              (some (.notImplemented ("Cannot replace root of type " ++
                ctorName target ++ " with value type " ++ typeofStr p.value)),
               target)
        | .prim _ =>
            (some (.notImplemented ("Cannot replace root of type " ++
              ctorName target ++ " with value type " ++ typeofStr p.value)),
             target)
      else
        (some (.notImplemented ("Cannot apply " ++ opStr p.op ++
          " operation to root level")), target)
  | _ => applyPatchRec heap fuel target p.path p.op p.value

/-! ### The event translator for sequence containers (bind.ts `applyYEvent`) -/

/-- One entry of a `Y.ArrayEvent` delta run: retain, delete, or insert
(the inserted content is a list of Yjs values / primitives). -/
inductive YDelta where
  | retain (n : Nat)
  | del (n : Nat)
  | ins (items : List YValue)

/-- `arr.splice(i, n)`: remove `n` elements starting at index `i`. -/
def spliceDelete {α : Type} (l : List α) (i n : Nat) : List α :=
  l.take i ++ l.drop (i + n)

/-- `arr.splice(i, 0, ...xs)`: insert `xs` at index `i`. -/
def spliceInsert {α : Type} (l : List α) (i : Nat) (xs : List α) : List α :=
  l.take i ++ xs ++ l.drop i

/-- The `Y.ArrayEvent` branch of bind.ts `applyYEvent` (lines 37-57):
fold the delta run over the base sequence, carrying the running cursor
(the source's `retain` variable, starting at 0): a retain advances the
cursor, a delete splices out at the cursor without advancing it, an
insert splices the plain-value projections in at the cursor and advances
it by the inserted count. -/
def applyYEventArr (base : List JSONValue) (deltas : List YDelta) :
    List JSONValue :=
  (deltas.foldl
    (fun acc ch =>
      match ch with
      | .retain n => (acc.1, acc.2 + n)
      | .del n => (spliceDelete acc.1 acc.2 n, acc.2)
      | .ins items =>
          (spliceInsert acc.1 acc.2 (plainList items), acc.2 + items.length))
    (base, 0)).1

/-- The specification's description of the same replay, written as a
recursive left-to-right scan with an explicit cursor state (spec.md
§4.3): retain advances the cursor by its count without mutating; delete
removes that many elements starting at the cursor without advancing it;
insert splices the plain-value projections of the inserted elements at
the cursor and advances the cursor by the inserted count. -/
def deltaRunSpec : List JSONValue → Nat → List YDelta → List JSONValue
  | l, _, [] => l
  | l, c, .retain n :: ds => deltaRunSpec l (c + n) ds
  | l, c, .del n :: ds => deltaRunSpec (spliceDelete l c n) c ds
  | l, c, .ins items :: ds =>
      deltaRunSpec (spliceInsert l c (plainList items)) (c + items.length) ds

/-! ### The subscriber set (bind.ts `subscribe` / notification loop)

Listeners are identified by numbers. The subscriber set is a JavaScript
`Set`, i.e. an insertion-ordered list without duplicates; a listener's
observable effect on the set during a notification is the list of
listeners it unsubscribes when invoked (`eff`). -/

/-- JavaScript `Set.add`: append if absent (`subscription.add(fn)`). -/
def setAdd (s : List Nat) (x : Nat) : List Nat :=
  if x ∈ s then s else s ++ [x]

/-- JavaScript `Set.delete` (`subscription.delete(fn)` — the body of the
returned unsubscribe function). -/
def setDelete (s : List Nat) (x : Nat) : List Nat :=
  s.filter (fun y => y ≠ x)

/-- JavaScript `Set.forEach` under deletions: entries are visited in
insertion order (`pending`), and an entry deleted before being visited
is skipped (it is no longer in `alive`). Invoking a listener applies its
removals to the live set. Returns the invocation log and the final set. -/
def forEachRun (eff : Nat → List Nat) :
    List Nat → List Nat → List Nat × List Nat
  | [], alive => ([], alive)
  | x :: rest, alive =>
      if x ∈ alive then
        (x :: (forEachRun eff rest ((eff x).foldl setDelete alive)).1,
         (forEachRun eff rest ((eff x).foldl setDelete alive)).2)
      else forEachRun eff rest alive

/-- One notification pass `subscription.forEach((fn) => fn(get()))`. -/
def notifyAll (eff : Nat → List Nat) (subs : List Nat) :
    List Nat × List Nat :=
  forEachRun eff subs subs

/-! ### The binder system over a flat keyed source container

For the binder-level claims the source container is modelled as a flat
`Y.Map` with primitive values, which is enough to express the origin
protocol, the event translation and the notification discipline. The Yjs
transaction / deep-observer machinery is not part of src/ and is
modelled from the spec where noted. -/

/-- A flat keyed container / snapshot: insertion-ordered key-value list. -/
abbrev FlatMap := List (String × JPrim)

def fLookup (m : FlatMap) (k : String) : Option JPrim :=
  match m with
  | [] => none
  | (k', v) :: rest => if k' = k then some v else fLookup rest k

/-- `Y.Map.set` on the flat source: replace in place or append. -/
def fSet (m : FlatMap) (k : String) (v : JPrim) : FlatMap :=
  match m with
  | [] => [(k, v)]
  | (k', v') :: rest =>
      if k' = k then (k', v) :: rest else (k', v') :: fSet rest k v

/-- `Y.Map.delete` on the flat source. -/
def fDelete (m : FlatMap) (k : String) : FlatMap :=
  m.filter (fun p => p.1 ≠ k)

/-- A primitive mutation of a flat keyed container. An `update` call's
mutator is modelled as a list of these, and the Mutative draft engine's
contract — produce the next snapshot plus patches that replay the same
mutations — is modelled by applying the same list to both sides. -/
inductive MutOp where
  | setK (k : String) (v : JPrim)
  | delK (k : String)
deriving DecidableEq, Repr

def applyMutOp (m : FlatMap) : MutOp → FlatMap
  | .setK k v => fSet m k v
  | .delK k => fDelete m k

def applyMutOps (m : FlatMap) (ops : List MutOp) : FlatMap :=
  ops.foldl applyMutOp m

/-- The action recorded for one key in a `Y.MapEvent`
(`event.changes.keys`): `'add' | 'update' | 'delete'`. -/
inductive KeyAction where
  | add
  | update
  | delete
deriving DecidableEq, Repr

/-- One key-level delta of a `Y.MapEvent`. -/
structure KeyChange where
  key : String
  action : KeyAction
deriving DecidableEq, Repr

/-- Modelled from the spec: the CRDT engine emits, per transaction, one
key-level add/update/delete delta for each key whose value changed
between the container state before and after the transaction (spec.md
§3 "Change event"). -/
def keyDelta (old new' : FlatMap) (k : String) : Option KeyAction :=
  match fLookup old k, fLookup new' k with
  | none, some _ => some .add
  | some a, some b => if a = b then none else some .update
  | some _, none => some .delete
  | none, none => none

/-- Modelled from the spec: the full key-delta batch of one transaction,
one change per affected key. -/
def diffEvents (old new' : FlatMap) : List KeyChange :=
  ((old.map Prod.fst ++ new'.map Prod.fst).dedup).filterMap
    (fun k => (keyDelta old new' k).map (fun a => ⟨k, a⟩))

/-- The `Y.MapEvent` branch of bind.ts `applyYEvent` (lines 23-36),
specialised to primitive children (`toPlainValue` is the identity
there): for each key delta, add/update sets the key on the base from the
live source container, delete removes it. -/
def applyYEventMap (base : FlatMap) (src : FlatMap)
    (changes : List KeyChange) : FlatMap :=
  changes.foldl
    (fun b c =>
      match c.action with
      | .add | .update => fSet b c.key ((fLookup src c.key).getD JPrim.null)
      | .delete => fDelete b c.key)
    base

/-- A transaction origin: either the module-level sentinel
`MUTATIVE_YJS_ORIGIN` (bind.ts 252) — a single symbol created once at
module load and therefore shared by every binder the module creates —
or an external (non-binder) origin such as `null`. -/
inductive Origin where
  | binderOrigin
  | external
deriving DecidableEq, Repr

/-- The state of one binder: its current snapshot and subscriber set. -/
structure BinderSt where
  snapshot : FlatMap
  subs : List Nat
deriving DecidableEq, Repr

/-- bind.ts `observer` (lines 272-278): skip events of a transaction
whose origin is the (shared) sentinel, otherwise translate the events
against the current snapshot, swap it in and notify the subscribers.
Returns the new binder state and the list of notified subscribers. -/
def observerStep (origin : Origin) (src : FlatMap)
    (changes : List KeyChange) (b : BinderSt) : BinderSt × List Nat :=
  if origin = Origin.binderOrigin then (b, [])
  else (⟨applyYEventMap b.snapshot src changes, b.subs⟩, b.subs)

/-- The possible JavaScript values of the `patchesOptions` option, by
`typeof` class (the payload of an object is irrelevant to validation). -/
inductive JSOpt where
  | boolean (b : Bool)
  | objectV
  | strV
  | numV
  | undef
  | nullV
  | funcV
deriving DecidableEq, Repr

/-- JavaScript `typeof` for option values (`typeof null` is `"object"`). -/
def typeofOpt : JSOpt → String
  | .boolean _ => "boolean"
  | .objectV => "object"
  | .strV => "string"
  | .numV => "number"
  | .undef => "undefined"
  | .nullV => "object"
  | .funcV => "function"

/-- bind.ts 293-295: `options ? (options.patchesOptions ?? true) : true`.
The input is the `patchesOptions` field of the options object, or `none`
when no options object was passed; `??` replaces both `undefined` and
`null` by `true`. -/
def resolvePatchesOptions (field : Option JSOpt) : JSOpt :=
  match field with
  | none => .boolean true
  | some .undef => .boolean true
  | some .nullV => .boolean true
  | some v => v

/-- bind.ts 297-303: the throw condition
`pO !== true && pO !== null && typeof pO !== 'object'`. -/
def patchesOptionsInvalid (v : JSOpt) : Bool :=
  !(v == JSOpt.boolean true) && !(v == JSOpt.nullV) &&
    !(typeofOpt v == "object")

/-- The whole system: the shared source container and the binders bound
to it (each an independent snapshot and subscriber set). -/
structure Sys where
  source : FlatMap
  binders : List BinderSt
deriving DecidableEq, Repr

/-- The error message of bind.ts 302. -/
def patchesOptionsErrorMsg : String :=
  "patchesOptions must be a boolean or an object"

/-- bind.ts `update` (lines 290-318) for binder `i`: validate the
resolved `patchesOptions` first (throwing before any mutation);
otherwise produce the next snapshot and patches from the mutator
(modelled from the spec of the Mutative draft engine as `applyMutOps`),
apply the patches to the source inside one transaction tagged with the
shared sentinel, deliver the resulting event batch to every observer
(all of which skip it, since the sentinel is module-global), swap in the
next snapshot, and notify this binder's subscribers once. Returns the
thrown error (if any), the new system and the notification log. -/
def updateStep (field : Option JSOpt) (sys : Sys) (i : Nat)
    (ops : List MutOp) : Option String × Sys × List Nat :=
  if patchesOptionsInvalid (resolvePatchesOptions field) then
    (some patchesOptionsErrorMsg, sys, [])
  else
    match sys.binders.get? i with
    | none => (none, sys, [])
    | some b =>
        let nextSnap := applyMutOps b.snapshot ops
        let src' := applyMutOps sys.source ops
        let changes := diffEvents sys.source src'
        let observed :=
          sys.binders.map (fun bj => (observerStep .binderOrigin src' changes bj).1)
        (none, ⟨src', observed.set i ⟨nextSnap, b.subs⟩⟩, b.subs)

/-- A direct external mutation of the source (e.g. `map.set(k, v)` from
outside any binder, or a merged remote transaction): the transaction
origin differs from the sentinel, so every binder's observer translates
the event batch and notifies its subscribers. -/
def externStep (sys : Sys) (op : MutOp) : Sys × List Nat :=
  let src' := applyMutOp sys.source op
  let changes := diffEvents sys.source src'
  let rs := sys.binders.map (observerStep .external src' changes)
  (⟨src', rs.map Prod.fst⟩, (rs.map Prod.snd).flatten)

/-- An operation on the running system. -/
inductive SysOp where
  | upd (i : Nat) (ops : List MutOp)
  | ext (op : MutOp)
deriving DecidableEq, Repr

def sysStep (sys : Sys) : SysOp → Sys
  | .upd i ops => (updateStep none sys i ops).2.1
  | .ext op => (externStep sys op).1

def sysRun (sys : Sys) (ops : List SysOp) : Sys :=
  ops.foldl sysStep sys

/-- bind.ts `bind`: each binder captures the source's current projection
(`source.toJSON()`) as its initial snapshot. `n` binders, no subscribers. -/
def bindAll (src : FlatMap) (n : Nat) : Sys :=
  ⟨src, List.replicate n ⟨src, []⟩⟩

/-- Deep equality of two flat snapshots as JavaScript values: the same
keys mapped to the same values (key order is not observable). -/
def mapEquiv (a b : FlatMap) : Prop :=
  ∀ k, fLookup a k = fLookup b k

/-- Key-uniqueness of a `Y.Map` entry list. -/
def yEntriesNodup : List (String × YValue) → Bool
  | [] => true
  | (k, _) :: rest => !ymapHasKey rest k && yEntriesNodup rest

/-! ## Lemmas about the value converter (round trip) -/

theorem ymapHasKey_append_single (a : List (String × YValue)) (k k' : String)
    (y : YValue) :
    ymapHasKey (a ++ [(k, y)]) k' = (ymapHasKey a k' || decide (k = k')) := by
  induction a with
  | nil => simp [ymapHasKey]
  | cons p rest ih =>
      obtain ⟨pk, py⟩ := p
      by_cases h : pk = k'
      · simp [ymapHasKey, h]
      · simp [ymapHasKey, h, ih]

theorem ymapSet_fresh (a : List (String × YValue)) (k : String) (y : YValue)
    (h : ymapHasKey a k = false) : ymapSet a k y = a ++ [(k, y)] := by
  induction a with
  | nil => simp [ymapSet]
  | cons p rest ih =>
      obtain ⟨pk, py⟩ := p
      by_cases hk : pk = k
      · simp [ymapHasKey, hk] at h
      · simp [ymapHasKey, hk] at h
        simp [ymapSet, hk, ih h]

theorem ymapHasKey_false_of_mem {es : List (String × YValue)} {k : String}
    (h : ymapHasKey es k = false) {p : String × YValue} (hp : p ∈ es) :
    p.1 ≠ k := by
  induction es with
  | nil => cases hp
  | cons q rest ih =>
      obtain ⟨qk, qy⟩ := q
      by_cases hk : qk = k
      · simp [ymapHasKey, hk] at h
      · simp [ymapHasKey, hk] at h
        rcases List.mem_cons.mp hp with rfl | hp'
        · exact hk
        · exact ih h hp'

theorem ymapSetAll_append (es : List (String × YValue)) :
    ∀ acc, (∀ p ∈ es, ymapHasKey acc p.1 = false) → yEntriesNodup es = true →
      ymapSetAll acc es = acc ++ es := by
  induction es with
  | nil => intro acc _ _; simp [ymapSetAll]
  | cons p rest ih =>
      intro acc hfresh hnd
      obtain ⟨pk, py⟩ := p
      simp only [yEntriesNodup, Bool.and_eq_true, Bool.not_eq_true'] at hnd
      have h1 : ymapHasKey acc pk = false := hfresh (pk, py) (List.mem_cons_self _ _)
      have step : ymapSet acc pk py = acc ++ [(pk, py)] := ymapSet_fresh _ _ _ h1
      have hfresh' : ∀ q ∈ rest, ymapHasKey (acc ++ [(pk, py)]) q.1 = false := by
        intro q hq
        rw [ymapHasKey_append_single]
        have h2 : q.1 ≠ pk := ymapHasKey_false_of_mem hnd.1 hq
        have h3 : ymapHasKey acc q.1 = false :=
          hfresh q (List.mem_cons_of_mem _ hq)
        have h4 : ¬(pk = q.1) := fun h => h2 h.symm
        simp [h3, h4]
      calc ymapSetAll acc ((pk, py) :: rest)
      _ = ymapSetAll (acc ++ [(pk, py)]) rest := by rw [ymapSetAll, step]
      _ = acc ++ [(pk, py)] ++ rest := ih _ hfresh' hnd.2
      _ = acc ++ (pk, py) :: rest := by simp

theorem ymapSetAll_nil_of_nodup (es : List (String × YValue))
    (hnd : yEntriesNodup es = true) : ymapSetAll [] es = es := by
  have := ymapSetAll_append es [] (by intro p _; rfl) hnd
  simpa using this

theorem ymapHasKey_toYEntriesT (es : List (String × JSONValue)) (k : String) :
    ymapHasKey (toYEntriesT es) k = hasKeyJ es k := by
  induction es with
  | nil => rfl
  | cons p rest ih =>
      obtain ⟨pk, pv⟩ := p
      by_cases h : pk = k
      · simp [toYEntriesT, ymapHasKey, hasKeyJ, h]
      · simp [toYEntriesT, ymapHasKey, hasKeyJ, h, ih]

theorem yEntriesNodup_toYEntriesT (es : List (String × JSONValue))
    (h : jwfEntries es = true) : yEntriesNodup (toYEntriesT es) = true := by
  induction es with
  | nil => rfl
  | cons p rest ih =>
      obtain ⟨pk, pv⟩ := p
      simp only [jwfEntries, Bool.and_eq_true, Bool.not_eq_true'] at h
      simp only [toYEntriesT, yEntriesNodup, Bool.and_eq_true, Bool.not_eq_true']
      exact ⟨by rw [ymapHasKey_toYEntriesT]; exact h.1.1, ih h.2⟩

theorem roundtrip_bounded :
    ∀ n (t : JSONValue), sizeOf t ≤ n → jwf t = true →
      toPlainValueY (toYDataTypeT t) = t := by
  intro n
  induction n with
  | zero =>
      intro t ht
      exfalso
      cases t <;> simp_arith at ht
  | succ n ih =>
      intro t ht hwf
      match t with
      | .prim p => rfl
      | .arr xs =>
          have hxs : sizeOf xs ≤ n := by
            have : sizeOf (JSONValue.arr xs) = 1 + sizeOf xs := by simp_arith
            omega
          have hlist : ∀ l : List JSONValue, sizeOf l ≤ n → jwfList l = true →
              plainList (toYListT l) = l := by
            intro l
            induction l with
            | nil => intro _ _; rfl
            | cons x rest ihl =>
                intro hl hwl
                have hx : sizeOf x ≤ n := by
                  have := List.sizeOf_lt_of_mem (List.mem_cons_self x rest)
                  omega
                have hrest : sizeOf rest ≤ n := by
                  simp_arith at hl
                  omega
                simp only [jwfList, Bool.and_eq_true] at hwl
                simp only [toYListT, plainList]
                rw [ih x hx hwl.1, ihl hrest hwl.2]
          simp only [toYDataTypeT, toPlainValueY]
          rw [hlist xs hxs (by simpa [jwf] using hwf)]
      | .obj es =>
          have hes : sizeOf es ≤ n := by
            have : sizeOf (JSONValue.obj es) = 1 + sizeOf es := by simp_arith
            omega
          have hwfe : jwfEntries es = true := by simpa [jwf] using hwf
          have hentries : ∀ l : List (String × JSONValue), sizeOf l ≤ n →
              jwfEntries l = true → plainEntries (toYEntriesT l) = l := by
            intro l
            induction l with
            | nil => intro _ _; rfl
            | cons p rest ihl =>
                intro hl hwl
                obtain ⟨pk, pv⟩ := p
                have hv : sizeOf pv ≤ n := by
                  have hmem := List.sizeOf_lt_of_mem
                    (List.mem_cons_self (pk, pv) rest)
                  have : sizeOf pv < sizeOf ((pk, pv) : String × JSONValue) := by
                    simp_arith
                  omega
                have hrest : sizeOf rest ≤ n := by
                  simp_arith at hl
                  omega
                simp only [jwfEntries, Bool.and_eq_true] at hwl
                simp only [toYEntriesT, plainEntries]
                rw [ih pv hv hwl.1.2, ihl hrest hwl.2]
          simp only [toYDataTypeT, toPlainValueY]
          rw [ymapSetAll_nil_of_nodup _ (yEntriesNodup_toYEntriesT es hwfe)]
          rw [hentries es hes hwfe]

/-! ## Lemmas about the sequence-event replay -/

theorem applyYEventArr_fold_spec (deltas : List YDelta) :
    ∀ (l : List JSONValue) (c : Nat),
      (deltas.foldl
        (fun acc ch =>
          match ch with
          | .retain n => (acc.1, acc.2 + n)
          | .del n => (spliceDelete acc.1 acc.2 n, acc.2)
          | .ins items =>
              (spliceInsert acc.1 acc.2 (plainList items), acc.2 + items.length))
        (l, c)).1 = deltaRunSpec l c deltas := by
  induction deltas with
  | nil => intro l c; rfl
  | cons d rest ih =>
      intro l c
      cases d with
      | retain n => simpa [deltaRunSpec] using ih l (c + n)
      | del n => simpa [deltaRunSpec] using ih (spliceDelete l c n) c
      | ins items =>
          simpa [deltaRunSpec] using
            ih (spliceInsert l c (plainList items)) (c + items.length)

/-! ## Lemmas about the subscriber set -/

theorem setDelete_mem {s : List Nat} {x y : Nat} :
    y ∈ setDelete s x ↔ y ∈ s ∧ y ≠ x := by
  simp [setDelete, List.mem_filter]

theorem forEachRun_log_subset (eff : Nat → List Nat) :
    ∀ pending alive, ∀ x ∈ (forEachRun eff pending alive).1, x ∈ pending := by
  intro pending
  induction pending with
  | nil => intro alive x hx; simp [forEachRun] at hx
  | cons p rest ih =>
      intro alive x hx
      by_cases hp : p ∈ alive
      · simp only [forEachRun, if_pos hp, List.mem_cons] at hx
        rcases hx with h | h
        · exact h ▸ List.mem_cons_self _ _
        · exact List.mem_cons_of_mem _ (ih _ x h)
      · simp only [forEachRun, if_neg hp] at hx
        exact List.mem_cons_of_mem _ (ih alive x hx)

theorem forEachRun_no_cross_removal (eff : Nat → List Nat)
    (heff : ∀ i, eff i = [i] ∨ eff i = []) :
    ∀ pending alive, pending.Nodup → (∀ y ∈ pending, y ∈ alive) →
      (forEachRun eff pending alive).1 = pending := by
  intro pending
  induction pending with
  | nil => intro alive _ _; rfl
  | cons p rest ih =>
      intro alive hnd hsub
      have hp : p ∈ alive := hsub p (List.mem_cons_self _ _)
      have hnd' := List.nodup_cons.mp hnd
      have hsub' : ∀ y ∈ rest, y ∈ (eff p).foldl setDelete alive := by
        intro y hy
        have hyal : y ∈ alive := hsub y (List.mem_cons_of_mem _ hy)
        have hyne : y ≠ p := fun h => hnd'.1 (h ▸ hy)
        rcases heff p with h | h
        · rw [h]
          simpa [List.foldl, setDelete_mem] using ⟨hyal, hyne⟩
        · rw [h]
          simpa [List.foldl] using hyal
      simp only [forEachRun, if_pos hp]
      rw [ih ((eff p).foldl setDelete alive) hnd'.2 hsub']

/-! ## Lemmas about the flat-map system model -/

theorem fLookup_fSet_self (m : FlatMap) (k : String) (v : JPrim) :
    fLookup (fSet m k v) k = some v := by
  induction m with
  | nil => simp [fSet, fLookup]
  | cons p rest ih =>
      obtain ⟨pk, pv⟩ := p
      by_cases h : pk = k
      · simp [fSet, fLookup, h]
      · simp [fSet, fLookup, h, ih]

theorem fLookup_fSet_ne (m : FlatMap) (k k' : String) (v : JPrim)
    (h : k ≠ k') : fLookup (fSet m k v) k' = fLookup m k' := by
  induction m with
  | nil => simp [fSet, fLookup, h]
  | cons p rest ih =>
      obtain ⟨pk, pv⟩ := p
      by_cases h1 : pk = k
      · subst h1
        simp [fSet, fLookup, h]
      · by_cases h2 : pk = k'
        · subst h2
          simp [fSet, fLookup, h1]
        · simp [fSet, fLookup, h1, h2, ih]

theorem fLookup_fDelete_self (m : FlatMap) (k : String) :
    fLookup (fDelete m k) k = none := by
  induction m with
  | nil => rfl
  | cons p rest ih =>
      obtain ⟨pk, pv⟩ := p
      simp only [fDelete, ne_eq, decide_not, List.filter_cons] at ih ⊢
      by_cases h : pk = k
      · simp [h, ih]
      · simp [h, fLookup, ih]

theorem fLookup_fDelete_ne (m : FlatMap) (k k' : String) (h : k ≠ k') :
    fLookup (fDelete m k) k' = fLookup m k' := by
  induction m with
  | nil => rfl
  | cons p rest ih =>
      obtain ⟨pk, pv⟩ := p
      simp only [fDelete, ne_eq, decide_not, List.filter_cons] at ih ⊢
      by_cases h1 : pk = k
      · subst h1
        simp [h, fLookup, ih]
      · by_cases h2 : pk = k'
        · subst h2
          simp [h1, fLookup]
        · simp [h1, h2, fLookup, ih]

theorem fLookup_some_mem {m : FlatMap} {k : String} {v : JPrim}
    (h : fLookup m k = some v) : k ∈ m.map Prod.fst := by
  induction m with
  | nil => simp [fLookup] at h
  | cons p rest ih =>
      obtain ⟨pk, pv⟩ := p
      by_cases h1 : pk = k
      · simp [h1]
      · simp only [fLookup, if_neg h1] at h
        simp [ih h]

/-- Pointwise effect of one mutation. -/
theorem fLookup_applyMutOp (m : FlatMap) (op : MutOp) (k : String) :
    fLookup (applyMutOp m op) k =
      match op with
      | .setK k' v => if k' = k then some v else fLookup m k
      | .delK k' => if k' = k then none else fLookup m k := by
  cases op with
  | setK k' v =>
      by_cases h : k' = k
      · subst h
        simp [applyMutOp, fLookup_fSet_self]
      · simp [applyMutOp, h, fLookup_fSet_ne m k' k v h]
  | delK k' =>
      by_cases h : k' = k
      · subst h
        simp [applyMutOp, fLookup_fDelete_self]
      · simp [applyMutOp, h, fLookup_fDelete_ne m k' k h]

theorem mapEquiv_applyMutOp {m1 m2 : FlatMap} (h : mapEquiv m1 m2)
    (op : MutOp) : mapEquiv (applyMutOp m1 op) (applyMutOp m2 op) := by
  intro k
  rw [fLookup_applyMutOp, fLookup_applyMutOp]
  cases op with
  | setK k' v => by_cases hk : k' = k <;> simp [hk, h k]
  | delK k' => by_cases hk : k' = k <;> simp [hk, h k]

theorem mapEquiv_applyMutOps {m1 m2 : FlatMap} (h : mapEquiv m1 m2)
    (ops : List MutOp) : mapEquiv (applyMutOps m1 ops) (applyMutOps m2 ops) := by
  induction ops generalizing m1 m2 with
  | nil => exact h
  | cons op rest ih => exact ih (mapEquiv_applyMutOp h op)

/-- Membership in the event batch is exactly a non-trivial key delta. -/
theorem mem_diffEvents {old new' : FlatMap} {k : String} {a : KeyAction} :
    (⟨k, a⟩ : KeyChange) ∈ diffEvents old new' ↔
      keyDelta old new' k = some a := by
  constructor
  · intro h
    rcases List.mem_filterMap.mp h with ⟨k', _, hk'⟩
    rcases Option.map_eq_some'.mp hk' with ⟨a', ha', hmk⟩
    cases hmk
    exact ha'
  · intro h
    apply List.mem_filterMap.mpr
    refine ⟨k, ?_, by rw [h]; rfl⟩
    apply List.mem_dedup.mpr
    have hmem : k ∈ old.map Prod.fst ∨ k ∈ new'.map Prod.fst := by
      unfold keyDelta at h
      cases hold : fLookup old k with
      | some v => exact Or.inl (fLookup_some_mem hold)
      | none =>
          cases hnew : fLookup new' k with
          | some w => exact Or.inr (fLookup_some_mem hnew)
          | none => rw [hold, hnew] at h; cases h
    rcases hmem with h1 | h1
    · exact List.mem_append_left _ h1
    · exact List.mem_append_right _ h1

/-- Every change in the batch carries a non-trivial delta for its key. -/
theorem diffEvents_action (old new' : FlatMap) :
    ∀ c ∈ diffEvents old new', keyDelta old new' c.key = some c.action := by
  intro c hc
  obtain ⟨k, a⟩ := c
  exact mem_diffEvents.mp hc

/-- The keys of the event batch are pairwise distinct. -/
theorem diffEvents_keys_nodup (old new' : FlatMap) :
    ((diffEvents old new').map KeyChange.key).Nodup := by
  unfold diffEvents
  have base := List.nodup_dedup (old.map Prod.fst ++ new'.map Prod.fst)
  generalize (old.map Prod.fst ++ new'.map Prod.fst).dedup = l at base ⊢
  induction l with
  | nil => simp
  | cons k rest ih =>
      have hnd := List.nodup_cons.mp base
      cases hdelta : keyDelta old new' k with
      | none => simpa [hdelta] using ih hnd.2
      | some a =>
          simp only [List.filterMap_cons, hdelta, Option.map_some', List.map_cons]
          refine List.nodup_cons.mpr ⟨?_, ih hnd.2⟩
          intro hmem
          rcases List.mem_map.mp hmem with ⟨c, hc, hck⟩
          rcases List.mem_filterMap.mp hc with ⟨k', hk', hk'c⟩
          rcases Option.map_eq_some'.mp hk'c with ⟨a', _, hmk⟩
          cases hmk
          exact hnd.1 (by simpa [← hck] using hk')

/-- Unfolding one step of the event translation. -/
theorem applyYEventMap_cons (base src : FlatMap) (c : KeyChange)
    (rest : List KeyChange) :
    applyYEventMap base src (c :: rest) =
      applyYEventMap
        (match c.action with
         | .add | .update => fSet base c.key ((fLookup src c.key).getD JPrim.null)
         | .delete => fDelete base c.key) src rest := rfl

/-- Folding the event translation over changes that do not mention `k`
leaves `k` untouched. -/
theorem applyYEventMap_lookup_notmem (src : FlatMap) (k : String) :
    ∀ (changes : List KeyChange) (base : FlatMap),
      (∀ c ∈ changes, c.key ≠ k) →
      fLookup (applyYEventMap base src changes) k = fLookup base k := by
  intro changes
  induction changes with
  | nil => intro base _; rfl
  | cons c rest ih =>
      intro base hk
      have hck : c.key ≠ k := hk c (List.mem_cons_self _ _)
      have hrest : ∀ c' ∈ rest, c'.key ≠ k :=
        fun c' hc' => hk c' (List.mem_cons_of_mem _ hc')
      rw [applyYEventMap_cons]
      obtain ⟨ck, ca⟩ := c
      cases ca with
      | add => rw [ih _ hrest]; exact fLookup_fSet_ne _ _ _ _ hck
      | update => rw [ih _ hrest]; exact fLookup_fSet_ne _ _ _ _ hck
      | delete => rw [ih _ hrest]; exact fLookup_fDelete_ne _ _ _ hck

/-- Folding the event translation over a batch containing `⟨k, a⟩` (with
pairwise-distinct keys) resolves `k` from the live source. -/
theorem applyYEventMap_lookup_mem (src : FlatMap) (k : String) (a : KeyAction) :
    ∀ (changes : List KeyChange) (base : FlatMap),
      (⟨k, a⟩ : KeyChange) ∈ changes →
      (changes.map KeyChange.key).Nodup →
      fLookup (applyYEventMap base src changes) k =
        match a with
        | .add | .update => some ((fLookup src k).getD JPrim.null)
        | .delete => none := by
  intro changes
  induction changes with
  | nil => intro base h _; cases h
  | cons c rest ih =>
      intro base hmem hnd
      rw [List.map_cons] at hnd
      have hnd' := List.nodup_cons.mp hnd
      by_cases hck : c.key = k
      · have hrest : ∀ c' ∈ rest, c'.key ≠ k := by
          intro c' hc' he
          exact hnd'.1 (hck ▸ he ▸ List.mem_map_of_mem KeyChange.key hc')
        have hca : c = ⟨k, a⟩ := by
          rcases List.mem_cons.mp hmem with h | h
          · exact h.symm
          · exact absurd rfl (hrest _ h)
        subst hca
        rw [applyYEventMap_cons]
        cases a with
        | add =>
            rw [applyYEventMap_lookup_notmem src k rest _ hrest]
            exact fLookup_fSet_self _ _ _
        | update =>
            rw [applyYEventMap_lookup_notmem src k rest _ hrest]
            exact fLookup_fSet_self _ _ _
        | delete =>
            rw [applyYEventMap_lookup_notmem src k rest _ hrest]
            exact fLookup_fDelete_self _ _
      · have hmem' : (⟨k, a⟩ : KeyChange) ∈ rest := by
          rcases List.mem_cons.mp hmem with h | h
          · exact absurd (by rw [← h]) hck
          · exact h
        rw [applyYEventMap_cons]
        exact ih _ hmem' hnd'.2

/-- The central convergence lemma: translating the event batch of a
transaction `old → new'` against any base deep-equal to `old` yields a
snapshot deep-equal to `new'`. -/
theorem applyYEventMap_diff {base old new' : FlatMap}
    (h : mapEquiv base old) :
    mapEquiv (applyYEventMap base new' (diffEvents old new')) new' := by
  intro k
  cases hdelta : keyDelta old new' k with
  | some a =>
      have hmem : (⟨k, a⟩ : KeyChange) ∈ diffEvents old new' :=
        mem_diffEvents.mpr hdelta
      rw [applyYEventMap_lookup_mem new' k a _ base hmem
        (diffEvents_keys_nodup old new')]
      cases hnew : fLookup new' k with
      | some w =>
          cases hold : fLookup old k with
          | none =>
              simp only [keyDelta, hold, hnew] at hdelta
              injection hdelta with ha
              subst ha
              simp [hnew]
          | some v =>
              simp only [keyDelta, hold, hnew] at hdelta
              by_cases hvw : v = w
              · rw [if_pos hvw] at hdelta; cases hdelta
              · rw [if_neg hvw] at hdelta
                injection hdelta with ha
                subst ha
                simp [hnew]
      | none =>
          cases hold : fLookup old k with
          | none =>
              simp only [keyDelta, hold, hnew] at hdelta
              cases hdelta
          | some v =>
              simp only [keyDelta, hold, hnew] at hdelta
              injection hdelta with ha
              subst ha
              rfl
  | none =>
      have hnot : ∀ c ∈ diffEvents old new', c.key ≠ k := by
        intro c hc he
        have hact := diffEvents_action old new' c hc
        rw [he, hdelta] at hact
        cases hact
      rw [applyYEventMap_lookup_notmem new' k _ base hnot, h k]
      cases hold : fLookup old k with
      | some v =>
          cases hnew : fLookup new' k with
          | some w =>
              simp only [keyDelta, hold, hnew] at hdelta
              by_cases hvw : v = w
              · rw [hvw]
              · rw [if_neg hvw] at hdelta; cases hdelta
          | none =>
              simp only [keyDelta, hold, hnew] at hdelta
              cases hdelta
      | none =>
          cases hnew : fLookup new' k with
          | some w =>
              simp only [keyDelta, hold, hnew] at hdelta
              cases hdelta
          | none => rfl

/-! ## Lemmas about the patch applier -/

theorem repopulate_ok (heap : Heap) (fuel : Nat)
    (f : String × PlainRef → YValue) :
    ∀ (es : List (String × PlainRef)) (acc : List (String × YValue)),
      (∀ p ∈ es, toYConv heap fuel p.2 = .ok (f p)) →
      repopulate heap fuel acc es =
        (none, ymapSetAll acc (es.map (fun p => (p.1, f p)))) := by
  intro es
  induction es with
  | nil => intro acc _; rfl
  | cons p rest ih =>
      intro acc hok
      obtain ⟨pk, pw⟩ := p
      have h1 : toYConv heap fuel pw = .ok (f (pk, pw)) :=
        hok _ (List.mem_cons_self _ _)
      simp only [repopulate, h1]
      rw [ih _ (fun q hq => hok q (List.mem_cons_of_mem _ hq))]
      rfl

theorem convertAllFresh_ok (heap : Heap) (fuel : Nat) (g : PlainRef → YValue) :
    ∀ (xs : List PlainRef),
      (∀ x ∈ xs, toYConv heap fuel x = .ok (g x)) →
      convertAllFresh heap fuel xs = .ok (xs.map g) := by
  intro xs
  induction xs with
  | nil => intro _; rfl
  | cons x rest ih =>
      intro hok
      have h1 : toYConv heap fuel x = .ok (g x) :=
        hok _ (List.mem_cons_self _ _)
      simp only [convertAllFresh, h1]
      rw [ih (fun q hq => hok q (List.mem_cons_of_mem _ hq))]
      rfl

theorem ymapHasKey_eq_false_iff (es : List (String × YValue)) (k : String) :
    ymapHasKey es k = false ↔ k ∉ es.map Prod.fst := by
  induction es with
  | nil => simp [ymapHasKey]
  | cons p rest ih =>
      obtain ⟨pk, py⟩ := p
      by_cases h : pk = k
      · simp [ymapHasKey, h]
      · simp [ymapHasKey, h, ih, Ne.symm h]

theorem yEntriesNodup_of_nodup {es : List (String × YValue)}
    (h : (es.map Prod.fst).Nodup) : yEntriesNodup es = true := by
  induction es with
  | nil => rfl
  | cons p rest ih =>
      obtain ⟨pk, py⟩ := p
      rw [List.map_cons] at h
      have h' := List.nodup_cons.mp h
      simp only [yEntriesNodup, Bool.and_eq_true, Bool.not_eq_true']
      exact ⟨(ymapHasKey_eq_false_iff rest pk).mpr h'.1, ih h'.2⟩

/-! ## Lemmas about the binder system -/

theorem get?_replicate_of_lt {α : Type} (a : α) :
    ∀ (n j : Nat), j < n → (List.replicate n a).get? j = some a := by
  intro n
  induction n with
  | zero => intro j h; omega
  | succ n ih =>
      intro j h
      cases j with
      | zero => rfl
      | succ j' => exact ih j' (by omega)

/-- The observer returns immediately on the (shared) binder origin. -/
theorem observerStep_skip (src : FlatMap) (changes : List KeyChange)
    (b : BinderSt) : observerStep .binderOrigin src changes b = (b, []) := rfl

/-- The observer of a foreign-origin transaction translates the events
and notifies its own subscribers. -/
theorem observerStep_foreign (src : FlatMap) (changes : List KeyChange)
    (b : BinderSt) :
    observerStep .external src changes b =
      (⟨applyYEventMap b.snapshot src changes, b.subs⟩, b.subs) := rfl

/-- Validation passes for the default configuration. -/
theorem patchesOptions_default_valid :
    patchesOptionsInvalid (resolvePatchesOptions none) = false := rfl

/-- Characterization of a well-configured `update` call on binder `i`. -/
theorem updateStep_eq (sys : Sys) (i : Nat) (ops : List MutOp)
    {b : BinderSt} (hb : sys.binders.get? i = some b) :
    updateStep none sys i ops =
      (none,
       ⟨applyMutOps sys.source ops,
        sys.binders.set i ⟨applyMutOps b.snapshot ops, b.subs⟩⟩,
       b.subs) := by
  unfold updateStep
  rw [patchesOptions_default_valid]
  simp only [Bool.false_eq_true, if_false, hb]
  have hobs :
      sys.binders.map
        (fun bj => (observerStep .binderOrigin (applyMutOps sys.source ops)
          (diffEvents sys.source (applyMutOps sys.source ops)) bj).1) =
        sys.binders := by
    simp [observerStep_skip]
  rw [hobs]

/-- Characterization of an external mutation step. -/
theorem externStep_eq (sys : Sys) (op : MutOp) :
    externStep sys op =
      (⟨applyMutOp sys.source op,
        sys.binders.map (fun b =>
          ⟨applyYEventMap b.snapshot (applyMutOp sys.source op)
            (diffEvents sys.source (applyMutOp sys.source op)), b.subs⟩)⟩,
       (sys.binders.map (fun b => b.subs)).flatten) := by
  simp only [externStep]
  have h1 : (Prod.fst ∘ observerStep Origin.external (applyMutOp sys.source op)
      (diffEvents sys.source (applyMutOp sys.source op))) =
      (fun b : BinderSt =>
        (⟨applyYEventMap b.snapshot (applyMutOp sys.source op)
          (diffEvents sys.source (applyMutOp sys.source op)), b.subs⟩ : BinderSt)) :=
    funext fun b => rfl
  have h2 : (Prod.snd ∘ observerStep Origin.external (applyMutOp sys.source op)
      (diffEvents sys.source (applyMutOp sys.source op))) =
      (fun b : BinderSt => b.subs) :=
    funext fun b => rfl
  rw [List.map_map, List.map_map, h1, h2]

/-- The invariant behind convergence: the binder at `j` exists and its
snapshot is deep-equal to the source projection. -/
def ConvInv (n j : Nat) (sys : Sys) : Prop :=
  sys.binders.length = n ∧
    ∃ b, sys.binders.get? j = some b ∧ mapEquiv b.snapshot sys.source

theorem convInv_step {n j : Nat} {sys : Sys} (inv : ConvInv n j sys)
    (op : SysOp)
    (hop : ∀ i l, op = SysOp.upd i l → i = j) :
    ConvInv n j (sysStep sys op) := by
  obtain ⟨hlen, b, hb, heq⟩ := inv
  cases op with
  | ext o =>
      simp only [sysStep, externStep_eq]
      refine ⟨by simpa using hlen, ?_⟩
      refine ⟨⟨applyYEventMap b.snapshot (applyMutOp sys.source o)
        (diffEvents sys.source (applyMutOp sys.source o)), b.subs⟩, ?_, ?_⟩
      · rw [List.get?_map, hb]
        rfl
      · exact applyYEventMap_diff heq
  | upd i ops =>
      have hij : i = j := hop i ops rfl
      subst hij
      simp only [sysStep, updateStep_eq sys i ops hb]
      refine ⟨by simpa using hlen, ?_⟩
      refine ⟨⟨applyMutOps b.snapshot ops, b.subs⟩, ?_, ?_⟩
      · apply List.get?_set_eq_of_lt
        rcases List.get?_eq_some.mp hb with ⟨hlt, _⟩
        exact hlt
      · exact mapEquiv_applyMutOps heq ops

theorem patchesOptionsInvalid_false_iff (v : JSOpt) :
    patchesOptionsInvalid v = false ↔
      (v = JSOpt.boolean true ∨ typeofOpt v = "object") := by
  cases v with
  | boolean b => cases b <;> decide
  | objectV => decide
  | strV => decide
  | numV => decide
  | undef => decide
  | nullV => decide
  | funcV => decide

/-! ## The claims -/

/-- C1 (counterexample): `MUTATIVE_YJS_ORIGIN` is created once at module
scope (bind.ts 252), so *all* binders share the same origin sentinel. A
transaction initiated by binder 0's `update` is therefore treated as
self-originated by binder 1 as well: binder 1's observer returns
immediately, its snapshot stays at the stale `{}` while the source and
binder 0 move to `{count: 10}`, and the two binders do not converge —
refuting "a transaction initiated by Binder A's update is treated as
remote by Binder B and updates B's snapshot". -/
theorem c1_update_not_seen_by_peer :
    (sysRun (bindAll [] 2) [SysOp.upd 0 [MutOp.setK "count" (JPrim.num 10)]]).source
        = [("count", JPrim.num 10)] ∧
    (sysRun (bindAll [] 2) [SysOp.upd 0 [MutOp.setK "count" (JPrim.num 10)]]).binders.get? 0
        = some ⟨[("count", JPrim.num 10)], []⟩ ∧
    (sysRun (bindAll [] 2) [SysOp.upd 0 [MutOp.setK "count" (JPrim.num 10)]]).binders.get? 1
        = some ⟨[], []⟩ ∧
    ¬ (∃ b, (sysRun (bindAll [] 2) [SysOp.upd 0 [MutOp.setK "count" (JPrim.num 10)]]).binders.get? 1
          = some b ∧
        mapEquiv b.snapshot
          (sysRun (bindAll [] 2) [SysOp.upd 0 [MutOp.setK "count" (JPrim.num 10)]]).source) := by
  refine ⟨rfl, rfl, rfl, ?_⟩
  rintro ⟨b, hb, he⟩
  have h3 : (sysRun (bindAll [] 2) [SysOp.upd 0 [MutOp.setK "count" (JPrim.num 10)]]).binders.get? 1
      = some (⟨[], []⟩ : BinderSt) := rfl
  have hbe : some b = some (⟨[], []⟩ : BinderSt) := hb.symm.trans h3
  injection hbe with hbe
  subst hbe
  exact Option.noConfusion
    (show (none : Option JPrim) = some (JPrim.num 10) from he "count")

/-- C1 (amended): binders bound to the same source converge under direct
external mutations of the source, and a binder's own `update` calls keep
its own snapshot deep-equal to the source; but an `update` by one binder
is skipped by every other binder (the origin sentinel is module-global,
shared by all binders), so convergence holds for binder `j` exactly over
histories whose `update` calls are all binder `j`'s own. -/
theorem c1_external_and_self_convergence (src0 : FlatMap) (n j : Nat)
    (ops : List SysOp) (hj : j < n)
    (hOwn : ∀ op ∈ ops, ∀ i l, op = SysOp.upd i l → i = j) :
    ∃ b, (sysRun (bindAll src0 n) ops).binders.get? j = some b ∧
      mapEquiv b.snapshot (sysRun (bindAll src0 n) ops).source := by
  have hinv : ConvInv n j (bindAll src0 n) := by
    refine ⟨by simp [bindAll], ⟨⟨src0, []⟩, ?_, fun k => rfl⟩⟩
    exact get?_replicate_of_lt _ n j hj
  have main : ∀ (l : List SysOp) (sys : Sys), ConvInv n j sys →
      (∀ op ∈ l, ∀ i ll, op = SysOp.upd i ll → i = j) →
      ConvInv n j (sysRun sys l) := by
    intro l
    induction l with
    | nil => intro sys h _; exact h
    | cons op rest ih =>
        intro sys h hall
        have h1 := convInv_step h op (hall op (List.mem_cons_self _ _))
        exact ih (sysStep sys op) h1
          (fun op' hop' => hall op' (List.mem_cons_of_mem _ hop'))
  exact (main ops _ hinv hOwn).2

/-- C1 (witness): one external mutation on a two-binder system. -/
theorem c1_convergence_witness :
    ∃ b, (sysRun (bindAll [] 2) [SysOp.ext (MutOp.setK "a" (JPrim.num 1))]).binders.get? 0
        = some b ∧
      mapEquiv b.snapshot
        (sysRun (bindAll [] 2) [SysOp.ext (MutOp.setK "a" (JPrim.num 1))]).source :=
  c1_external_and_self_convergence [] 2 0 [SysOp.ext (MutOp.setK "a" (JPrim.num 1))]
    (by decide)
    (by
      intro op hop i l heq
      rw [List.mem_singleton] at hop
      subst hop
      cases heq)

/-- C2: one `update` call notifies exactly the updating binder's current
subscribers, each exactly once, regardless of how many patches the
mutator produced (the notification loop runs once, after the
transaction); and any binder's observer returns immediately — without
translating anything — on a transaction carrying the binder-origin
sentinel, so no change is reflected twice. -/
theorem c2_update_single_notification (sys : Sys) (i : Nat) (b : BinderSt)
    (ops : List MutOp) (hb : sys.binders.get? i = some b)
    (hnd : b.subs.Nodup) :
    (updateStep none sys i ops).2.2 = b.subs
    ∧ (∀ s, ((updateStep none sys i ops).2.2).count s =
        if s ∈ b.subs then 1 else 0)
    ∧ (∀ (src : FlatMap) (changes : List KeyChange) (bj : BinderSt),
        observerStep .binderOrigin src changes bj = (bj, [])) := by
  refine ⟨?_, ?_, fun _ _ _ => rfl⟩
  · rw [updateStep_eq sys i ops hb]
  · intro s
    rw [updateStep_eq sys i ops hb]
    by_cases hs : s ∈ b.subs
    · simp only [hs, if_pos]
      exact List.count_eq_one_of_mem hnd hs
    · simp only [hs, if_neg, ite_false]
      exact List.count_eq_zero.mpr hs

/-- C2 (witness): an update producing two patches on a binder with two
subscribers notifies each subscriber once. -/
theorem c2_single_notification_witness :
    (updateStep none ⟨[], [⟨[], [7, 8]⟩]⟩ 0
        [MutOp.setK "x" (JPrim.num 1), MutOp.setK "y" (JPrim.num 2)]).2.2
      = [7, 8] ∧
    (∀ s, ((updateStep none ⟨[], [⟨[], [7, 8]⟩]⟩ 0
        [MutOp.setK "x" (JPrim.num 1), MutOp.setK "y" (JPrim.num 2)]).2.2).count s =
      if s ∈ [7, 8] then 1 else 0) :=
  ⟨(c2_update_single_notification ⟨[], [⟨[], [7, 8]⟩]⟩ 0 ⟨[], [7, 8]⟩ _
      rfl (by decide)).1,
   (c2_update_single_notification ⟨[], [⟨[], [7, 8]⟩]⟩ 0 ⟨[], [7, 8]⟩ _
      rfl (by decide)).2.1⟩

/-- C3 (counterexample): the resolved setting `false` *is* a boolean,
yet `update` throws the configuration error (the runtime check accepts
only `true` or values of object type, matching the declared type
`true | {…}` rather than the claim's "boolean"). -/
theorem c3_false_boolean_rejected :
    typeofOpt (resolvePatchesOptions (some (JSOpt.boolean false))) = "boolean" ∧
    updateStep (some (JSOpt.boolean false)) (bindAll [] 1) 0 [] =
      (some patchesOptionsErrorMsg, bindAll [] 1, []) := ⟨rfl, rfl⟩

/-- C3 (amended): `update` succeeds without a configuration error
exactly when the resolved `patchesOptions` is `true` or a value of
JavaScript object type; any other resolved value — including the boolean
`false` — throws the descriptive error synchronously before any
mutation, returning the system unchanged with no notification. -/
theorem c3_patches_options_validation (field : Option JSOpt) (sys : Sys)
    (i : Nat) (ops : List MutOp) :
    (patchesOptionsInvalid (resolvePatchesOptions field) = true →
       updateStep field sys i ops = (some patchesOptionsErrorMsg, sys, []))
    ∧ ((updateStep field sys i ops).1 = none ↔
         (resolvePatchesOptions field = JSOpt.boolean true ∨
          typeofOpt (resolvePatchesOptions field) = "object")) := by
  constructor
  · intro hv
    unfold updateStep
    rw [hv]
    rfl
  · cases hv : patchesOptionsInvalid (resolvePatchesOptions field) with
    | true =>
        unfold updateStep
        rw [hv]
        simp only [if_true]
        constructor
        · intro h; cases h
        · intro h
          rw [← patchesOptionsInvalid_false_iff] at h
          rw [hv] at h
          cases h
    | false =>
        unfold updateStep
        rw [hv]
        simp only [Bool.false_eq_true, if_false]
        constructor
        · intro _
          exact (patchesOptionsInvalid_false_iff _).mp hv
        · intro _
          cases sys.binders.get? i <;> rfl

/-- C3 (witness): a string value is rejected with the system unchanged;
an object value passes validation. -/
theorem c3_validation_witness :
    updateStep (some JSOpt.strV) (bindAll [] 1) 0 [] =
      (some patchesOptionsErrorMsg, bindAll [] 1, []) ∧
    ((updateStep (some JSOpt.objectV) (bindAll [] 1) 0 []).1 = none ↔
      (resolvePatchesOptions (some JSOpt.objectV) = JSOpt.boolean true ∨
       typeofOpt (resolvePatchesOptions (some JSOpt.objectV)) = "object")) :=
  ⟨(c3_patches_options_validation (some JSOpt.strV) (bindAll [] 1) 0 []).1 rfl,
   (c3_patches_options_validation (some JSOpt.objectV) (bindAll [] 1) 0 []).2⟩

/-- C4 (counterexample): the plain value `{a: s, b: s}` with `s = {x: 1}`
is free of cycles — it unfolds completely within depth 5 — yet the
converter throws the circular-reference error on the second sight of the
shared identity `s` (the `seen` set is shared across the whole
conversion call), so `toPlainValue(toContainerValue(v))` yields no value
that could deep-equal `v`. -/
theorem c4_shared_reference_fails :
    boundedTree [PlainNode.obj [("a", PlainRef.ref 1), ("b", PlainRef.ref 1)],
      PlainNode.obj [("x", PlainRef.prim (JPrim.num 1))]] 5 (PlainRef.ref 0) = true ∧
    toYConv [PlainNode.obj [("a", PlainRef.ref 1), ("b", PlainRef.ref 1)],
      PlainNode.obj [("x", PlainRef.prim (JPrim.num 1))]] 10 (PlainRef.ref 0) =
      Except.error ConvErr.circular := ⟨rfl, rfl⟩

/-- C4 (amended): for every *tree-shaped* plain JSON value — free of
cycles and of repeated references to the same mapping/sequence object,
which the converter equally rejects as circular — converting to a CRDT
container and projecting back yields the value itself (deep equality;
object key lists carry no duplicate keys, as JavaScript objects cannot). -/
theorem c4_roundtrip_tree_values (t : JSONValue) (h : jwf t = true) :
    toPlainValueY (toYDataTypeT t) = t :=
  roundtrip_bounded (sizeOf t) t (Nat.le_refl _) h

/-- C4 (witness): round trip of `{a: 1, b: [true]}`. -/
theorem c4_roundtrip_witness :
    jwf (JSONValue.obj [("a", JSONValue.prim (JPrim.num 1)),
      ("b", JSONValue.arr [JSONValue.prim (JPrim.bool true)])]) = true ∧
    toPlainValueY (toYDataTypeT (JSONValue.obj
      [("a", JSONValue.prim (JPrim.num 1)),
       ("b", JSONValue.arr [JSONValue.prim (JPrim.bool true)])])) =
      JSONValue.obj [("a", JSONValue.prim (JPrim.num 1)),
        ("b", JSONValue.arr [JSONValue.prim (JPrim.bool true)])] :=
  ⟨rfl, c4_roundtrip_tree_values _ rfl⟩

/-- C5 (code-bug evaluation): the repository's own test suite expects
`items[1] = null` (with `items[1]` a keyed container) to perform a full
replacement yielding `[{id:1}, null, {id:3}]`. Because
`isJSONObject(null)` is `true` (`typeof null === 'object'`), the applier
instead takes the incremental-update path: it clears the existing
container and then crashes with a `TypeError` in `Object.entries(null)`,
leaving the element as the emptied container `{}` — so the code
contradicts both the claim and its own test. -/
theorem c5_null_element_replace_type_error :
    applyPatchH [] 10
        (.ymap [("items", .yarr [.ymap [("id", .prim (.num 1))],
          .ymap [("id", .prim (.num 2))], .ymap [("id", .prim (.num 3))]])])
        ⟨POp.replace, [PKey.s "items", PKey.n 1], PlainRef.prim JPrim.null⟩ =
      (some ConvErr.typeError,
       .ymap [("items", .yarr [.ymap [("id", .prim (.num 1))], .ymap [],
         .ymap [("id", .prim (.num 3))]])]) := rfl

/-- C6: the sequence-event replay of `applyYEvent` coincides with the
specification's single-cursor left-to-right scan: retain advances the
cursor by its count without mutating, delete removes that many elements
starting at the cursor without advancing it, and insert splices the
plain-value projections in at the cursor and advances it by the inserted
count — each delta processed in the order reported. -/
theorem c6_delta_cursor_semantics (base : List JSONValue)
    (deltas : List YDelta) :
    applyYEventArr base deltas = deltaRunSpec base 0 deltas :=
  applyYEventArr_fold_spec deltas base 0

/-- C7: for a patch with an empty path, an `add` or `remove` op raises
the `NotImplemented` error and performs no mutation (the target is
returned untouched); a `replace` on a keyed root with a mapping value
clears the root and repopulates it key by key through the value
converter, and a `replace` on a sequence root with a sequence value
clears the root and pushes the conversions of the elements. -/
theorem c7_root_patch_semantics :
    (∀ (heap : Heap) (fuel : Nat) (target : YValue) (v : PlainRef) (op : POp),
       op = POp.add ∨ op = POp.remove →
       applyPatchH heap fuel target ⟨op, [], v⟩ =
         (some (ConvErr.notImplemented ("Cannot apply " ++ opStr op ++
           " operation to root level")), target))
    ∧ (∀ (heap : Heap) (fuel : Nat) (es : List (String × YValue)) (r : Nat)
         (entries : List (String × PlainRef)) (f : String × PlainRef → YValue),
         heap.get? r = some (PlainNode.obj entries) →
         (entries.map Prod.fst).Nodup →
         (∀ p ∈ entries, toYConv heap fuel p.2 = .ok (f p)) →
         applyPatchH heap fuel (.ymap es) ⟨POp.replace, [], .ref r⟩ =
           (none, .ymap (entries.map (fun p => (p.1, f p)))))
    ∧ (∀ (heap : Heap) (fuel : Nat) (xs : List YValue) (r : Nat)
         (elems : List PlainRef) (g : PlainRef → YValue),
         heap.get? r = some (PlainNode.arr elems) →
         (∀ x ∈ elems, toYConv heap fuel x = .ok (g x)) →
         applyPatchH heap fuel (.yarr xs) ⟨POp.replace, [], .ref r⟩ =
           (none, .yarr (elems.map g))) := by
  refine ⟨?_, ?_, ?_⟩
  · intro heap fuel target v op hop
    rcases hop with rfl | rfl <;> rfl
  · intro heap fuel es r entries f hr hnd hok
    rw [List.get?_eq_getElem?] at hr
    have harr : isJSONArrayH heap (.ref r) = false := by
      simp [isJSONArrayH, hr]
    have hobj : isJSONObjectH heap (.ref r) = true := by
      simp [isJSONObjectH, harr, typeofStr]
    have hForIn : entriesForIn heap (.ref r) = entries := by
      simp [entriesForIn, hr]
    have hkeys : ((entries.map (fun p => (p.1, f p))).map Prod.fst).Nodup := by
      rw [List.map_map]
      have hcomp : (Prod.fst ∘ fun p : String × PlainRef => (p.1, f p)) =
          Prod.fst := funext fun p => rfl
      rw [hcomp]
      exact hnd
    simp only [applyPatchH]
    rw [hobj]
    simp only [if_true]
    rw [hForIn, repopulate_ok heap fuel f entries [] hok,
      ymapSetAll_nil_of_nodup _ (yEntriesNodup_of_nodup hkeys)]
  · intro heap fuel xs r elems g hr hok
    rw [List.get?_eq_getElem?] at hr
    have harr : isJSONArrayH heap (.ref r) = true := by
      simp [isJSONArrayH, hr]
    have hElems : elemsOfArr heap (.ref r) = elems := by
      simp [elemsOfArr, hr]
    simp only [applyPatchH]
    rw [harr]
    simp only [if_true]
    rw [hElems, convertAllFresh_ok heap fuel g elems hok]

/-- C7 (witness): `add` at the root is rejected with the map untouched,
and a root `replace` with `{a: 1}` repopulates the root. -/
theorem c7_root_patch_witness :
    applyPatchH [] 5 (.ymap [("x", .prim (.num 5))])
        ⟨POp.add, [], PlainRef.prim JPrim.null⟩ =
      (some (ConvErr.notImplemented "Cannot apply add operation to root level"),
       .ymap [("x", .prim (.num 5))]) ∧
    applyPatchH [PlainNode.obj [("a", PlainRef.prim (JPrim.num 1))]] 5
        (.ymap [("x", .prim (.num 5))]) ⟨POp.replace, [], PlainRef.ref 0⟩ =
      (none, .ymap [("a", .prim (.num 1))]) :=
  ⟨c7_root_patch_semantics.1 [] 5 (.ymap [("x", .prim (.num 5))])
      (PlainRef.prim JPrim.null) POp.add (Or.inl rfl),
   c7_root_patch_semantics.2.1 [PlainNode.obj [("a", PlainRef.prim (JPrim.num 1))]]
      5 [("x", .prim (.num 5))] 0 [("a", PlainRef.prim (JPrim.num 1))]
      (fun _ => .prim (.num 1)) rfl (by decide)
      (by
        intro p hp
        rw [List.mem_singleton] at hp
        subst hp
        rfl)⟩

/-- C8 (counterexample): applying the root `replace` patch whose value
is the circular object `{a: 1, self: <itself>}` to the attached root map
`{x: 5}` throws the circular-reference error, but only after the root
has been cleared and its first key set: the root — which is attached to
the tree by definition — is left partially populated as `{a: 1}`,
refuting "no partially populated CRDT container is left attached to the
tree when the error is thrown". -/
theorem c8_partial_root_population :
    applyPatchH [PlainNode.obj [("a", PlainRef.prim (JPrim.num 1)),
        ("self", PlainRef.ref 0)]] 10
        (.ymap [("x", .prim (.num 5))]) ⟨POp.replace, [], PlainRef.ref 0⟩ =
      (some ConvErr.circular, .ymap [("a", .prim (.num 1))]) := rfl

/-- C8 (amended): a mapping or sequence whose identity is already in the
`seen` set of the conversion call raises the circular-reference error;
and in the keyed-container set path (a patch whose terminal key is a map
key) the conversion error escapes before the `set`, leaving the target
map unchanged. (The repopulation paths — root replace and the in-place
array-element update — clear their target first and set key by key, so
there a later key's conversion error leaves the previously set keys in
place; see the counterexample.) -/
theorem c8_circular_detection_amended :
    (∀ (heap : Heap) (fuel : Nat) (seen : List Nat) (i : Nat) (nd : PlainNode),
       heap.get? i = some nd → i ∈ seen →
       toYDataTypeH heap (fuel + 1) seen (.ref i) = Except.error ConvErr.circular)
    ∧ (∀ (heap : Heap) (fuel : Nat) (es : List (String × YValue)) (k : String)
         (v : PlainRef) (e : ConvErr) (op : POp), op ≠ POp.remove →
         toYConv heap fuel v = .error e →
         applyPatchH heap fuel (.ymap es) ⟨op, [PKey.s k], v⟩ =
           (some e, .ymap es)) := by
  constructor
  · intro heap fuel seen i nd h1 h2
    rw [List.get?_eq_getElem?] at h1
    cases nd with
    | obj entries => simp [toYDataTypeH, h1, h2]
    | arr elems => simp [toYDataTypeH, h1, h2]
  · intro heap fuel es k v e op hop herr
    cases op with
    | add =>
        show mutateTerminal heap fuel (.ymap es) (PKey.s k) POp.add v = _
        simp [mutateTerminal, herr]
    | replace =>
        show mutateTerminal heap fuel (.ymap es) (PKey.s k) POp.replace v = _
        simp [mutateTerminal, herr]
    | remove => exact absurd rfl hop

/-- C8 (witness): a directly self-referential object is rejected when
already seen, and setting a map key to it leaves the map unchanged. -/
theorem c8_circular_witness :
    toYDataTypeH [PlainNode.obj [("self", PlainRef.ref 0)]] 4 [0]
        (PlainRef.ref 0) = Except.error ConvErr.circular ∧
    applyPatchH [PlainNode.obj [("self", PlainRef.ref 0)]] 5
        (.ymap [("x", .prim (.num 5))])
        ⟨POp.replace, [PKey.s "data"], PlainRef.ref 0⟩ =
      (some ConvErr.circular, .ymap [("x", .prim (.num 5))]) :=
  ⟨c8_circular_detection_amended.1 [PlainNode.obj [("self", PlainRef.ref 0)]]
      3 [0] 0 (PlainNode.obj [("self", PlainRef.ref 0)]) rfl (by decide),
   c8_circular_detection_amended.2 [PlainNode.obj [("self", PlainRef.ref 0)]]
      5 [("x", .prim (.num 5))] "data" (PlainRef.ref 0) ConvErr.circular
      POp.replace (by decide) rfl⟩

/-- C9 (counterexample): listener 1 unsubscribes listener 2 from within
the notification in progress. JavaScript `Set.forEach` does not visit
entries deleted before being visited, so listener 2 — subscribed when
the notification began — is *not* invoked in that notification,
refuting "every listener that was subscribed when the notification began
is still invoked in the notification in progress". -/
theorem c9_cross_removal_skips_listener :
    (2 ∈ ([1, 2] : List Nat)) ∧
    (notifyAll (fun x => if x = 1 then [2] else []) [1, 2]).1 = [1] :=
  ⟨by decide, rfl⟩

/-- C9 (amended): the unsubscribe function is idempotent, so calling it
multiple times is safe; only listeners subscribed when the notification
began can be invoked; and a removal performed during a notification that
only removes the invoking listener itself (or removes nothing) leaves
the notification in progress complete — every initially subscribed
listener is still invoked. A not-yet-invoked listener removed by an
*earlier* listener, however, is skipped in the notification in progress
(see the counterexample). -/
theorem c9_unsubscribe_semantics_amended :
    (∀ (s : List Nat) (x : Nat), setDelete (setDelete s x) x = setDelete s x)
    ∧ (∀ (eff : Nat → List Nat) (pending alive : List Nat),
        ∀ x ∈ (forEachRun eff pending alive).1, x ∈ pending)
    ∧ (∀ (eff : Nat → List Nat) (s : List Nat),
        (∀ i, eff i = [i] ∨ eff i = []) → s.Nodup →
        (notifyAll eff s).1 = s) := by
  refine ⟨?_, forEachRun_log_subset, ?_⟩
  · intro s x
    simp [setDelete, List.filter_filter]
  · intro eff s heff hnd
    exact forEachRun_no_cross_removal eff heff s s hnd (fun y hy => hy)

/-- C9 (witness): double unsubscription is a no-op, and self-removing
listeners are all still invoked. -/
theorem c9_unsubscribe_witness :
    setDelete (setDelete [1, 2] 2) 2 = setDelete [1, 2] 2 ∧
    (notifyAll (fun i => [i]) [4, 5]).1 = [4, 5] :=
  ⟨c9_unsubscribe_semantics_amended.1 [1, 2] 2,
   c9_unsubscribe_semantics_amended.2.2 (fun i => [i]) [4, 5]
     (fun _ => Or.inl rfl) (by decide)⟩

/-- C10: subscribing the same listener twice registers it at most once
(the subscriber set is a JavaScript `Set`); a registered listener is
invoked exactly once per notification; and after unsubscribing (either
returned unsubscribe closure deletes the same function object) the
listener is not invoked by later notifications. -/
theorem c10_duplicate_subscribe_once :
    (∀ (s : List Nat) (f : Nat), setAdd (setAdd s f) f = setAdd s f)
    ∧ (∀ (s : List Nat) (f : Nat), f ∈ setAdd s f)
    ∧ (∀ (s : List Nat) (f : Nat), s.Nodup → (setAdd s f).Nodup)
    ∧ (∀ (s : List Nat) (f : Nat), s.Nodup → f ∈ s →
        (notifyAll (fun _ => []) s).1.count f = 1)
    ∧ (∀ (s : List Nat) (f : Nat),
        (notifyAll (fun _ => []) (setDelete s f)).1.count f = 0) := by
  refine ⟨?_, ?_, ?_, ?_, ?_⟩
  · intro s f
    by_cases h : f ∈ s
    · simp [setAdd, h]
    · simp [setAdd, h]
  · intro s f
    by_cases h : f ∈ s
    · simp [setAdd, h]
    · simp [setAdd, h]
  · intro s f hnd
    by_cases h : f ∈ s
    · simpa [setAdd, h] using hnd
    · simp only [setAdd]
      rw [if_neg h, List.nodup_append]
      refine ⟨hnd, List.nodup_singleton f, ?_⟩
      exact fun a ha hf2 => h ((List.mem_singleton.mp hf2) ▸ ha)
  · intro s f hnd hf
    have hlog : (notifyAll (fun _ => []) s).1 = s :=
      forEachRun_no_cross_removal (fun _ => []) (fun _ => Or.inr rfl) s s hnd
        (fun y hy => hy)
    rw [hlog]
    exact List.count_eq_one_of_mem hnd hf
  · intro s f
    apply List.count_eq_zero.mpr
    intro hmem
    have h1 := forEachRun_log_subset (fun _ => []) (setDelete s f)
      (setDelete s f) f hmem
    rw [setDelete_mem] at h1
    exact h1.2 rfl

/-- C10 (witness): subscribing listener 9 twice, counting its
invocations in one notification, and counting after removal. -/
theorem c10_subscribe_witness :
    setAdd (setAdd [5] 9) 9 = setAdd [5] 9 ∧
    (notifyAll (fun _ => []) [5, 9]).1.count 9 = 1 ∧
    (notifyAll (fun _ => []) (setDelete [5, 9] 9)).1.count 9 = 0 :=
  ⟨c10_duplicate_subscribe_once.1 [5] 9,
   c10_duplicate_subscribe_once.2.2.2.1 [5, 9] 9 (by decide) (by decide),
   c10_duplicate_subscribe_once.2.2.2.2 [5, 9] 9⟩

end MutativeYjs
